import Mathlib

/-!
Verification development for the federated-search backend.

The backend exposes one search handler that
1. validates the raw user query,
2. splits it into terms and expands each term via the DataMuse lexical
   service (`expandQuery`),
3. builds a boolean query string with OR-groups per term joined by AND,
4. dispatches the query concurrently to the Europeana and PLOS
   connectors (`Promise.allSettled`),
5. maps each raw provider item to a common result record, concatenates
   whatever succeeded, normalizes relevance scores by the collection-wide
   maximum, and stable-sorts descending by the normalized score.

Strings are modelled as `List Char` so that splitting and joining are
fully transparent; relevance scores (IEEE doubles in the source) are
modelled as rationals, which is faithful for the order/field reasoning
the properties need.  External services appear as explicit outcome
values (`ExpandOutcome`, `SettledResult`), mirroring how the code sees
them after the awaits settle.
-/

namespace FedSearch

/-- Strings are modelled as lists of characters. -/
abbrev Str := List Char

/-- Whitespace as recognized by JavaScript's `String.prototype.trim`
(the common code points; exotic Unicode space separators are not
modelled). -/
def isWS (c : Char) : Bool :=
  c = ' ' || c = '\t' || c = '\n' || c = '\r' || c = '\u000B' || c = '\u000C' ||
    c = '\u00A0' || c = '\uFEFF'

/-- Model of `userQuery.split(' ')`: split on the single space character,
keeping empty fields (JavaScript `String.prototype.split` with a
one-character separator). -/
def splitOnSpace : Str → List Str
  | [] => [[]]
  | c :: cs =>
    match splitOnSpace cs with
    | [] => [[c]]
    | t :: ts => if c = ' ' then [] :: t :: ts else (c :: t) :: ts

/-- Model of `String.prototype.trim`: drop whitespace from both ends. -/
def trim (l : Str) : Str :=
  ((l.dropWhile isWS).reverse.dropWhile isWS).reverse

/-- Model of `userQuery.split(' ').filter(term => term.trim() !== '')`
(line 66 of the backend). -/
def getTerms (q : Str) : List Str :=
  (splitOnSpace q).filter (fun t => trim t ≠ [])

/-- Model of iterating a JavaScript `Set` built from a list: keep the
first occurrence of each element, in insertion order (`seen` is the set
of elements already emitted). -/
def dedupAcc {α : Type} [DecidableEq α] (seen : List α) : List α → List α
  | [] => []
  | x :: xs => if x ∈ seen then dedupAcc seen xs else x :: dedupAcc (x :: seen) xs

/-- Model of `[...new Set(l)]`. -/
def dedupKeepFirst {α : Type} [DecidableEq α] (l : List α) : List α :=
  dedupAcc [] l

/-- Model of `Array.prototype.join(sep)`. -/
def joinSep (sep : Str) : List Str → Str
  | [] => []
  | [t] => t
  | t :: t2 :: ts => t ++ sep ++ joinSep sep (t2 :: ts)

def orSep : Str := (" OR ").toList

def andSep : Str := (" AND ").toList

/-- One item of a DataMuse response (`response.data`); only the `word`
field is read by the backend. -/
structure DMWord where
  word : Str
deriving DecidableEq

/-- Outcome of one DataMuse call as `expandQuery` observes it: either the
parsed response payload, or any transport/parsing failure (the `catch`
branch). -/
inductive ExpandOutcome where
  | success (items : List DMWord)
  | failure
deriving DecidableEq

/-- Model of `expandQuery` (lines 40–50): on success return
`response.data.map(word => word.word)`, on any error return `[]`. -/
def expandQuery : ExpandOutcome → List Str
  | .success items => items.map DMWord.word
  | .failure => []

/-- Model of one element of `queryGroups` (lines 76–82):
`groupTerms = [...new Set([term, ...synonyms])]`, rendered as
`(t1 OR t2 OR ...)` when the group has more than one member and as the
bare term otherwise. -/
def queryGroup (term : Str) (synonyms : List Str) : Str :=
  let groupTerms := dedupKeepFirst (term :: synonyms)
  if groupTerms.length > 1 then ('(' :: joinSep orSep groupTerms) ++ [')'] else term

/-- Model of the `queryGroups` construction: `allSynonyms[index]` is the
settled outcome of the index-th expansion promise (`env`). -/
def buildQueryGroups (terms : List Str) (env : Nat → ExpandOutcome) : List Str :=
  terms.enum.map (fun p => queryGroup p.2 (expandQuery (env p.1)))

/-- Model of `queryGroups.join(' AND ')` (line 85). -/
def buildQueryString (terms : List Str) (env : Nat → ExpandOutcome) : Str :=
  joinSep andSep (buildQueryGroups terms env)

/-- One raw Europeana item as read by the mapping code: `title` is an
optional array of strings, `edmIsShownBy`/`edmIsShownAt` optional
strings, `score` an optional number. -/
structure EuropeanaItem where
  title : Option (List Str)
  edmIsShownBy : Option Str
  edmIsShownAt : Option Str
  score : Option ℚ
deriving DecidableEq

/-- One raw PLOS document as read by the mapping code. -/
structure PlosDoc where
  title_display : Option Str
  score : Option ℚ
  id : Option Str
deriving DecidableEq

/-- The common result record sent to the frontend. -/
structure ResultRecord where
  title : Str
  source : Str
  original_relevance_score : ℚ
  link : Str
  normalized_score : ℚ
deriving DecidableEq

/-- JavaScript `a || b` where `a` is an optional string: an absent or
empty string is falsy. -/
def jsStrOr (a : Option Str) (b : Str) : Str :=
  match a with
  | some s => if s = [] then b else s
  | none => b

/-- JavaScript `a || b` where `a` is an optional number: absent and `0`
are falsy (NaN, which is also falsy, is outside the rational model). -/
def jsNumOr (a : Option ℚ) (b : ℚ) : ℚ :=
  match a with
  | some s => if s = 0 then b else s
  | none => b

/-- The `'Sin Título'` placeholder title. -/
def sinTitulo : Str := ("Sin Título").toList

/-- The `'#'` placeholder link. -/
def hashLink : Str := ("#").toList

/-- The fixed PLOS article URL prepended to `doc.id`. -/
def plosLinkBase : Str := ("https://journals.plos.org/plosone/article?id=").toList

/-- Model of the Europeana item mapping (lines 119–130). -/
def mapEuropeanaItem (item : EuropeanaItem) : ResultRecord :=
  let title := match item.title with
    | some (t :: _) => t
    | _ => sinTitulo
  { title := title
    source := ("Europeana").toList
    original_relevance_score := jsNumOr item.score 0
    link := jsStrOr item.edmIsShownBy (jsStrOr item.edmIsShownAt hashLink)
    normalized_score := 0 }

/-- Model of the PLOS doc mapping (lines 155–166). -/
def mapPlosDoc (doc : PlosDoc) : ResultRecord :=
  { title := jsStrOr doc.title_display sinTitulo
    source := ("PLOS").toList
    original_relevance_score := jsNumOr doc.score 0
    link := match doc.id with
      | some i => if i = [] then hashLink else plosLinkBase ++ i
      | none => hashLink
    normalized_score := 0 }

/-- One settled promise as returned by `Promise.allSettled`. -/
inductive SettledResult (α : Type) where
  | fulfilled (value : α)
  | rejected
deriving DecidableEq

/-- A settled Europeana response: `some items` when
`value.data && value.data.items` holds (expected shape), `none` for an
unexpected shape. -/
abbrev EuropeanaOutcome := SettledResult (Option (List EuropeanaItem))

/-- A settled PLOS response: `some docs` when
`value.data && value.data.response && value.data.response.docs` holds. -/
abbrev PlosOutcome := SettledResult (Option (List PlosDoc))

/-- Records contributed by the Europeana connector (lines 115–148): the
mapped items on a fulfilled expected-shape response, nothing otherwise
(unexpected shape and rejection are only logged). -/
def europeanaRecords : EuropeanaOutcome → List ResultRecord
  | .fulfilled (some items) => items.map mapEuropeanaItem
  | _ => []

/-- Records contributed by the PLOS connector (lines 151–182). -/
def plosRecords : PlosOutcome → List ResultRecord
  | .fulfilled (some docs) => docs.map mapPlosDoc
  | _ => []

/-- `allResults` after both concatenations (lines 110, 131, 167):
Europeana records first, then PLOS records. -/
def collectedRecords (er : EuropeanaOutcome) (pr : PlosOutcome) : List ResultRecord :=
  europeanaRecords er ++ plosRecords pr

/-- Model of `Math.max(...allResults.map(r => r.original_relevance_score), 0)`
(line 188). -/
def maxScore (rs : List ResultRecord) : ℚ :=
  (rs.map ResultRecord.original_relevance_score).foldr max 0

/-- Model of the normalization block (lines 186–197): when the collection
is non-empty, divide every score by `maxScore` when it is positive and by
`1` otherwise. -/
def normalize (rs : List ResultRecord) : List ResultRecord :=
  if 0 < rs.length then
    let divisor := if 0 < maxScore rs then maxScore rs else 1
    rs.map (fun r => { r with normalized_score := r.original_relevance_score / divisor })
  else rs

/-- The ordering used by the final sort: the comparator
`(a, b) => b.normalized_score - a.normalized_score` puts `a` before `b`
exactly when `b.normalized_score ≤ a.normalized_score`. -/
def sortRel (a b : ResultRecord) : Prop :=
  b.normalized_score ≤ a.normalized_score

instance : DecidableRel sortRel :=
  fun a b => inferInstanceAs (Decidable (b.normalized_score ≤ a.normalized_score))

instance : IsTotal ResultRecord sortRel :=
  ⟨fun _ _ => le_total _ _⟩

instance : IsTrans ResultRecord sortRel :=
  ⟨fun _ _ _ h1 h2 => le_trans h2 h1⟩

/-- Model of `allResults.sort((a, b) => b.normalized_score - a.normalized_score)`
(line 200): `Array.prototype.sort` is stable, and a stable sort with
respect to the total preorder `sortRel` is insertion sort. -/
def sortResults (rs : List ResultRecord) : List ResultRecord :=
  List.insertionSort sortRel rs

/-- Everything the handler does with the two settled provider outcomes
(lines 110–202): collect, normalize, sort. -/
def aggregateResults (er : EuropeanaOutcome) (pr : PlosOutcome) : List ResultRecord :=
  sortResults (normalize (collectedRecords er pr))

/-- What the handler sends back: a 400 rejection for a missing/empty
query (line 62), or a JSON array of result records. -/
inductive SearchResponse where
  | badRequest
  | ok (results : List ResultRecord)
deriving DecidableEq

/-- Model of the whole `/search` handler (lines 58–203).  `q` is the
optional `req.query.q`; `env i` is the settled outcome of the expansion
promise for the i-th term; `eur`/`plos` give each connector's settled
outcome for the query string it is sent. -/
def handleSearch (q : Option Str) (env : Nat → ExpandOutcome)
    (eur : Str → EuropeanaOutcome) (plos : Str → PlosOutcome) : SearchResponse :=
  match q with
  | none => .badRequest
  | some userQuery =>
    if userQuery = [] then .badRequest
    else
      let originalTerms := getTerms userQuery
      let queryString := buildQueryString originalTerms env
      if queryString = [] then .ok []
      else .ok (aggregateResults (eur queryString) (plos queryString))

/-- The divisor chosen by the normalization block: `maxScore` when
positive, else `1`. -/
def divisorOf (rs : List ResultRecord) : ℚ :=
  if 0 < maxScore rs then maxScore rs else 1

/-!
### Spec-side definitions

The specification describes each query group as "deduplicate {Term
followed by its synonyms} preserving first-seen order, wrap in
`(... OR ...)` if more than one member, else use the bare term".  The
following definitions follow those words directly (dedup by accumulating
an output list and skipping members already present; rendering by case
on the member list), independently of how the code does it with a
JavaScript `Set` and a length test.
-/

/-- Modelled from the spec: first-seen-order deduplication, written as a
left fold that appends each element not already in the output. -/
def specDedup {α : Type} [DecidableEq α] (l : List α) : List α :=
  l.foldl (fun acc x => if x ∈ acc then acc else acc ++ [x]) []

/-- Modelled from the spec: a group with exactly one member is rendered
bare; any other group is wrapped in parentheses with ` OR ` between
members. -/
def specRenderGroup (members : List Str) : Str :=
  match members with
  | [m] => m
  | ms => ('(' :: joinSep orSep ms) ++ [')']

/-! ### Lemmas about splitting and trimming -/

theorem splitOnSpace_ne_nil (q : Str) : splitOnSpace q ≠ [] := by
  cases q with
  | nil => simp [splitOnSpace]
  | cons c cs =>
    unfold splitOnSpace
    cases h : splitOnSpace cs with
    | nil => simp
    | cons t ts => by_cases hc : c = ' ' <;> simp [hc]

theorem joinSep_space_splitOnSpace (q : Str) : joinSep [' '] (splitOnSpace q) = q := by
  induction q with
  | nil => rfl
  | cons c cs ih =>
    unfold splitOnSpace
    cases h : splitOnSpace cs with
    | nil => exact absurd h (splitOnSpace_ne_nil cs)
    | cons t ts =>
      rw [h] at ih
      by_cases hc : c = ' '
      · subst hc
        simpa [joinSep] using ih
      · cases ts with
        | nil =>
          simp only [if_neg hc, joinSep] at ih ⊢
          rw [ih]
        | cons t2 ts2 =>
          simp only [if_neg hc, joinSep, List.cons_append] at ih ⊢
          rw [ih]

theorem space_not_mem_splitOnSpace (q : Str) : ∀ t ∈ splitOnSpace q, ' ' ∉ t := by
  induction q with
  | nil => simp [splitOnSpace]
  | cons c cs ih =>
    unfold splitOnSpace
    cases h : splitOnSpace cs with
    | nil => exact absurd h (splitOnSpace_ne_nil cs)
    | cons t ts =>
      rw [h] at ih
      by_cases hc : c = ' ' <;> simp only [if_pos, if_neg, hc, if_true, if_false]
      · intro u hu
        rcases List.mem_cons.mp hu with rfl | hu
        · simp
        · exact ih u hu
      · intro u hu
        rcases List.mem_cons.mp hu with rfl | hu
        · intro hsp
          rcases List.mem_cons.mp hsp with rfl | hsp
          · exact hc rfl
          · exact ih t (List.mem_cons_self t ts) hsp
        · exact ih u (List.mem_cons_of_mem t hu)

theorem trim_eq_nil_of_all_ws {t : Str} (h : ∀ c ∈ t, isWS c = true) : trim t = [] := by
  have hd : t.dropWhile isWS = [] := List.dropWhile_eq_nil_iff.mpr h
  simp [trim, hd]

theorem exists_not_ws_of_trim_ne_nil {t : Str} (h : trim t ≠ []) :
    ∃ c ∈ t, isWS c = false := by
  by_contra hc
  push_neg at hc
  exact h (trim_eq_nil_of_all_ws (fun c hmem => by
    have := hc c hmem
    simpa using this))

theorem mem_getTerms_spec (q : Str) :
    ∀ t ∈ getTerms q, t ≠ [] ∧ ' ' ∉ t ∧ ∃ c ∈ t, isWS c = false := by
  intro t ht
  have hmem : t ∈ splitOnSpace q := List.mem_of_mem_filter ht
  have htrim : trim t ≠ [] := by
    have := List.of_mem_filter ht
    simpa using this
  refine ⟨?_, space_not_mem_splitOnSpace q t hmem, exists_not_ws_of_trim_ne_nil htrim⟩
  intro hnil
  subst hnil
  exact htrim rfl

/-! ### Lemmas about deduplication -/

theorem mem_dedupAcc {α : Type} [DecidableEq α] {a : α} :
    ∀ {l seen : List α}, a ∈ dedupAcc seen l ↔ a ∈ l ∧ a ∉ seen := by
  intro l
  induction l with
  | nil => intro seen; simp [dedupAcc]
  | cons x xs ih =>
    intro seen
    unfold dedupAcc
    by_cases hx : x ∈ seen
    · simp only [if_pos hx, ih, List.mem_cons]
      constructor
      · rintro ⟨h1, h2⟩
        exact ⟨Or.inr h1, h2⟩
      · rintro ⟨rfl | h1, h2⟩
        · exact absurd hx h2
        · exact ⟨h1, h2⟩
    · simp only [if_neg hx, List.mem_cons, ih]
      by_cases hax : a = x
      · subst hax
        simp [hx]
      · simp [hax]

theorem nodup_dedupAcc {α : Type} [DecidableEq α] :
    ∀ (l seen : List α), (dedupAcc seen l).Nodup := by
  intro l
  induction l with
  | nil => intro seen; simp [dedupAcc]
  | cons x xs ih =>
    intro seen
    unfold dedupAcc
    by_cases hx : x ∈ seen
    · simpa [hx] using ih seen
    · simp only [if_neg hx, List.nodup_cons]
      refine ⟨?_, ih (x :: seen)⟩
      intro hmem
      exact (mem_dedupAcc.mp hmem).2 (List.mem_cons_self x seen)

theorem nodup_dedupKeepFirst {α : Type} [DecidableEq α] (l : List α) :
    (dedupKeepFirst l).Nodup :=
  nodup_dedupAcc l []

theorem mem_dedupKeepFirst {α : Type} [DecidableEq α] {a : α} {l : List α} :
    a ∈ dedupKeepFirst l ↔ a ∈ l := by
  simp [dedupKeepFirst, mem_dedupAcc]

/-! ### Spec-side formulation of the query-group construction -/

theorem dedupAcc_cons {α : Type} [DecidableEq α] (seen : List α) (x : α) (xs : List α) :
    dedupAcc seen (x :: xs) =
      if x ∈ seen then dedupAcc seen xs else x :: dedupAcc (x :: seen) xs := rfl

theorem dedupAcc_congr {α : Type} [DecidableEq α] :
    ∀ (l seen1 seen2 : List α), (∀ a, a ∈ seen1 ↔ a ∈ seen2) →
      dedupAcc seen1 l = dedupAcc seen2 l := by
  intro l
  induction l with
  | nil => intro seen1 seen2 _; rfl
  | cons x xs ih =>
    intro seen1 seen2 hseen
    unfold dedupAcc
    by_cases hx : x ∈ seen1
    · rw [if_pos hx, if_pos ((hseen x).mp hx)]
      exact ih seen1 seen2 hseen
    · rw [if_neg hx, if_neg (fun h => hx ((hseen x).mpr h))]
      refine congrArg (x :: ·) (ih _ _ ?_)
      intro a
      simp [hseen a]

theorem specDedup_foldl {α : Type} [DecidableEq α] :
    ∀ (l acc : List α),
      l.foldl (fun acc x => if x ∈ acc then acc else acc ++ [x]) acc =
        acc ++ dedupAcc acc l := by
  intro l
  induction l with
  | nil => intro acc; simp [dedupAcc]
  | cons x xs ih =>
    intro acc
    by_cases hx : x ∈ acc
    · simp only [List.foldl_cons, if_pos hx]
      rw [ih acc, dedupAcc_cons, if_pos hx]
    · simp only [List.foldl_cons, if_neg hx]
      rw [ih (acc ++ [x]), dedupAcc_cons, if_neg hx]
      rw [dedupAcc_congr xs (acc ++ [x]) (x :: acc) (fun a => by simp [or_comm])]
      simp

theorem specDedup_eq_dedupKeepFirst {α : Type} [DecidableEq α] (l : List α) :
    specDedup l = dedupKeepFirst l := by
  simpa [specDedup, dedupKeepFirst] using specDedup_foldl l []

theorem dedupKeepFirst_cons (t : Str) (syns : List Str) :
    dedupKeepFirst (t :: syns) = t :: dedupAcc [t] syns := by
  simp [dedupKeepFirst, dedupAcc]

theorem queryGroup_eq_specRenderGroup (t : Str) (syns : List Str) :
    queryGroup t syns = specRenderGroup (specDedup (t :: syns)) := by
  rw [specDedup_eq_dedupKeepFirst]
  unfold queryGroup
  rw [dedupKeepFirst_cons]
  cases h : dedupAcc [t] syns with
  | nil => simp [specRenderGroup]
  | cons b bs => simp [specRenderGroup, joinSep]

theorem buildQueryString_eq_spec (terms : List Str) (env : Nat → ExpandOutcome) :
    buildQueryString terms env =
      joinSep andSep
        (terms.enum.map (fun p => specRenderGroup (specDedup (p.2 :: expandQuery (env p.1))))) := by
  unfold buildQueryString buildQueryGroups
  refine congrArg (joinSep andSep) (List.map_congr_left ?_)
  intro p _
  exact queryGroup_eq_specRenderGroup p.2 (expandQuery (env p.1))

/-! ### Lemmas about normalization -/

theorem maxScore_nil : maxScore [] = 0 := rfl

theorem maxScore_cons (r : ResultRecord) (rs : List ResultRecord) :
    maxScore (r :: rs) = max r.original_relevance_score (maxScore rs) := rfl

theorem maxScore_nonneg (rs : List ResultRecord) : 0 ≤ maxScore rs := by
  induction rs with
  | nil => exact le_refl 0
  | cons r rs ih => exact le_trans ih (by rw [maxScore_cons]; exact le_max_right _ _)

theorem le_maxScore_of_mem {r : ResultRecord} {rs : List ResultRecord} (h : r ∈ rs) :
    r.original_relevance_score ≤ maxScore rs := by
  induction rs with
  | nil => cases h
  | cons a t ih =>
    rw [maxScore_cons]
    rcases List.mem_cons.mp h with rfl | h
    · exact le_max_left _ _
    · exact le_trans (ih h) (le_max_right _ _)

theorem divisorOf_pos (rs : List ResultRecord) : 0 < divisorOf rs := by
  unfold divisorOf
  split
  · assumption
  · exact one_pos

theorem normalize_eq_map {rs : List ResultRecord} (h : rs ≠ []) :
    normalize rs =
      rs.map (fun r =>
        { r with normalized_score := r.original_relevance_score / divisorOf rs }) := by
  unfold normalize divisorOf
  rw [if_pos (List.length_pos.mpr h)]

theorem mem_normalize {r : ResultRecord} {rs : List ResultRecord} (h : r ∈ normalize rs) :
    ∃ r0 ∈ rs,
      r = { r0 with normalized_score := r0.original_relevance_score / divisorOf rs } := by
  cases rs with
  | nil => simp [normalize] at h
  | cons a t =>
    rw [normalize_eq_map (List.cons_ne_nil a t)] at h
    rcases List.mem_map.mp h with ⟨r0, hr0, heq⟩
    exact ⟨r0, hr0, heq.symm⟩

theorem normalized_score_mem_unit {r : ResultRecord} {rs : List ResultRecord}
    (hnn : ∀ r0 ∈ rs, 0 ≤ r0.original_relevance_score) (h : r ∈ normalize rs) :
    0 ≤ r.normalized_score ∧ r.normalized_score ≤ 1 := by
  rcases mem_normalize h with ⟨r0, hr0, rfl⟩
  have hd := divisorOf_pos rs
  constructor
  · exact div_nonneg (hnn r0 hr0) (le_of_lt hd)
  · rw [div_le_one hd]
    unfold divisorOf
    split
    · exact le_maxScore_of_mem hr0
    · calc r0.original_relevance_score ≤ maxScore rs := le_maxScore_of_mem hr0
        _ ≤ 1 := le_trans (not_lt.mp (by assumption)) zero_le_one

/-! ### Lemmas about the final sort -/

theorem sortResults_sorted (rs : List ResultRecord) :
    (sortResults rs).Sorted sortRel :=
  List.sorted_insertionSort sortRel rs

theorem sortResults_perm (rs : List ResultRecord) : List.Perm (sortResults rs) rs :=
  List.perm_insertionSort sortRel rs

theorem sortResults_of_sorted {rs : List ResultRecord} (h : rs.Sorted sortRel) :
    sortResults rs = rs :=
  List.Sorted.insertionSort_eq h

theorem sortResults_idem (rs : List ResultRecord) :
    sortResults (sortResults rs) = sortResults rs :=
  sortResults_of_sorted (sortResults_sorted rs)

theorem filter_score_orderedInsert (q : ℚ) (x : ResultRecord) :
    ∀ s : List ResultRecord,
      (List.orderedInsert sortRel x s).filter (fun r => r.normalized_score = q) =
        if x.normalized_score = q then
          x :: s.filter (fun r => r.normalized_score = q)
        else s.filter (fun r => r.normalized_score = q) := by
  intro s
  induction s with
  | nil => by_cases hx : x.normalized_score = q <;> simp [List.orderedInsert, List.filter, hx]
  | cons b t ih =>
    by_cases hxb : sortRel x b
    · rw [List.orderedInsert, if_pos hxb]
      by_cases hx : x.normalized_score = q <;> simp [List.filter_cons, hx]
    · rw [List.orderedInsert, if_neg hxb]
      have hlt : x.normalized_score < b.normalized_score := by
        have : ¬ (b.normalized_score ≤ x.normalized_score) := hxb
        exact not_le.mp this
      by_cases hx : x.normalized_score = q
      · have hb : ¬ (b.normalized_score = q) := by
          intro hb
          rw [hb, hx] at hlt
          exact lt_irrefl q hlt
        simp [List.filter_cons, hb, hx, ih]
      · simp [List.filter_cons, hx, ih]

theorem filter_score_sortResults (q : ℚ) :
    ∀ l : List ResultRecord,
      (sortResults l).filter (fun r => r.normalized_score = q) =
        l.filter (fun r => r.normalized_score = q) := by
  intro l
  induction l with
  | nil => rfl
  | cons a t ih =>
    have hstep : sortResults (a :: t) = List.orderedInsert sortRel a (sortResults t) := rfl
    rw [hstep, filter_score_orderedInsert]
    by_cases hx : a.normalized_score = q <;> simp [List.filter_cons, hx, ih]

/-! ### Lemmas about the collected records and the handler -/

theorem jsStrOr_ne_nil {a : Option Str} {b : Str} (hb : b ≠ []) : jsStrOr a b ≠ [] := by
  unfold jsStrOr
  cases a with
  | none => exact hb
  | some s =>
    by_cases hs : s = [] <;> simp [hs, hb]

theorem mapEuropeanaItem_link_ne_nil (item : EuropeanaItem) :
    (mapEuropeanaItem item).link ≠ [] := by
  unfold mapEuropeanaItem
  exact jsStrOr_ne_nil (jsStrOr_ne_nil (by decide))

theorem mapPlosDoc_link_ne_nil (doc : PlosDoc) : (mapPlosDoc doc).link ≠ [] := by
  unfold mapPlosDoc
  cases hid : doc.id with
  | none => simp [hashLink]
  | some i =>
    by_cases hi : i = [] <;> simp [hi, hashLink, plosLinkBase]

theorem mapPlosDoc_title_ne_nil (doc : PlosDoc) : (mapPlosDoc doc).title ≠ [] := by
  unfold mapPlosDoc
  exact jsStrOr_ne_nil (by decide)

theorem mem_europeanaRecords {r : ResultRecord} {er : EuropeanaOutcome}
    (h : r ∈ europeanaRecords er) : ∃ item, r = mapEuropeanaItem item := by
  cases er with
  | rejected => cases h
  | fulfilled v =>
    cases v with
    | none => cases h
    | some items =>
      rcases List.mem_map.mp h with ⟨item, _, heq⟩
      exact ⟨item, heq.symm⟩

theorem mem_plosRecords {r : ResultRecord} {pr : PlosOutcome}
    (h : r ∈ plosRecords pr) : ∃ doc, r = mapPlosDoc doc := by
  cases pr with
  | rejected => cases h
  | fulfilled v =>
    cases v with
    | none => cases h
    | some docs =>
      rcases List.mem_map.mp h with ⟨doc, _, heq⟩
      exact ⟨doc, heq.symm⟩

theorem collected_link_ne_nil {r : ResultRecord} {er : EuropeanaOutcome} {pr : PlosOutcome}
    (h : r ∈ collectedRecords er pr) : r.link ≠ [] := by
  rcases List.mem_append.mp h with h | h
  · rcases mem_europeanaRecords h with ⟨item, rfl⟩
    exact mapEuropeanaItem_link_ne_nil item
  · rcases mem_plosRecords h with ⟨doc, rfl⟩
    exact mapPlosDoc_link_ne_nil doc

theorem buildQueryString_of_terms_nil (env : Nat → ExpandOutcome) :
    buildQueryString [] env = [] := rfl

theorem handleSearch_some_of_ne {uq : Str} (h : uq ≠ []) (env : Nat → ExpandOutcome)
    (eur : Str → EuropeanaOutcome) (plos : Str → PlosOutcome) :
    handleSearch (some uq) env eur plos =
      (if buildQueryString (getTerms uq) env = [] then .ok []
       else .ok (aggregateResults (eur (buildQueryString (getTerms uq) env))
                                  (plos (buildQueryString (getTerms uq) env)))) := by
  unfold handleSearch
  dsimp only
  rw [if_neg h]

/-! ### Claim theorems -/

/-- C8 (counterexample): the raw query `"a\tb"` is kept as the single
term `"a\tb"`, which contains the whitespace character `'\t'`; the split
is on the space character only, so the claimed "maximal non-whitespace
runs" `["a", "b"]` are not produced. -/
theorem claim_C8_counterexample :
    getTerms ['a', '\t', 'b'] = [['a', '\t', 'b']] ∧
    getTerms ['a', '\t', 'b'] ≠ [['a'], ['b']] ∧
    '\t' ∈ (['a', '\t', 'b'] : Str) ∧ isWS '\t' = true := by
  refine ⟨by decide, by decide, by decide, by decide⟩

/-- C8 (amended): the raw query is split on the space character (U+0020),
dropping the tokens whose trim is empty; every resulting Term is a
non-empty token that contains no space character and at least one
non-whitespace character (it may still contain other whitespace such as
tabs), and the split is exactly the space-separated decomposition of the
raw query (joining it back with single spaces restores the input). -/
theorem claim_C8_amended (q : Str) :
    getTerms q = (splitOnSpace q).filter (fun t => trim t ≠ []) ∧
    joinSep [' '] (splitOnSpace q) = q ∧
    (∀ t ∈ getTerms q, t ≠ [] ∧ ' ' ∉ t ∧ ∃ c ∈ t, isWS c = false) :=
  ⟨rfl, joinSep_space_splitOnSpace q, mem_getTerms_spec q⟩

/-- C8 (witness): the amended theorem applied to the raw query `"a b"`
and its first term `"a"`. -/
theorem claim_C8_witness :
    (['a'] : Str) ≠ [] ∧ ' ' ∉ (['a'] : Str) ∧ ∃ c ∈ (['a'] : Str), isWS c = false :=
  (claim_C8_amended ['a', ' ', 'b']).2.2 ['a'] (by decide)

/-- C5 (counterexample): the empty raw query splits into zero terms, yet
the handler answers with the 400 rejection, not with an empty result
list. -/
theorem claim_C5_counterexample :
    getTerms [] = [] ∧
    handleSearch (some []) (fun _ => ExpandOutcome.failure)
        (fun _ => SettledResult.rejected) (fun _ => SettledResult.rejected) =
      SearchResponse.badRequest ∧
    SearchResponse.badRequest ≠ SearchResponse.ok [] :=
  ⟨rfl, rfl, by decide⟩

/-- C5 (amended): for every NON-EMPTY raw query whose splitting yields
zero non-whitespace terms, the handler returns the empty result list,
and its answer does not depend on the expansion or provider outcomes
(no connector is invoked); the empty raw query is instead rejected as
bad input. -/
theorem claim_C5_amended (uq : Str) (env : Nat → ExpandOutcome)
    (eur : Str → EuropeanaOutcome) (plos : Str → PlosOutcome)
    (hne : uq ≠ []) (hterms : getTerms uq = []) :
    handleSearch (some uq) env eur plos = SearchResponse.ok [] ∧
    (∀ (env2 : Nat → ExpandOutcome) (eur2 : Str → EuropeanaOutcome)
        (plos2 : Str → PlosOutcome),
      handleSearch (some uq) env eur plos = handleSearch (some uq) env2 eur2 plos2) := by
  have hqs : ∀ e : Nat → ExpandOutcome, buildQueryString (getTerms uq) e = [] := by
    intro e
    rw [hterms]
    rfl
  constructor
  · rw [handleSearch_some_of_ne hne, if_pos (hqs env)]
  · intro env2 eur2 plos2
    rw [handleSearch_some_of_ne hne env eur plos, if_pos (hqs env),
      handleSearch_some_of_ne hne env2 eur2 plos2, if_pos (hqs env2)]

/-- C5 (witness): the amended theorem applied to the whitespace-only raw
query `" "`. -/
theorem claim_C5_witness :
    handleSearch (some [' ']) (fun _ => ExpandOutcome.failure)
        (fun _ => SettledResult.rejected) (fun _ => SettledResult.rejected) =
      SearchResponse.ok [] :=
  (claim_C5_amended [' '] (fun _ => ExpandOutcome.failure)
    (fun _ => SettledResult.rejected) (fun _ => SettledResult.rejected)
    (by decide) (by decide)).1

/-- C10: the handler answers with the 400 rejection exactly when the raw
query parameter is absent or the empty string; every other raw query,
whitespace-only ones included, gets a successful (possibly empty) result
list. -/
theorem claim_C10 :
    (∀ (q : Option Str) (env : Nat → ExpandOutcome) (eur : Str → EuropeanaOutcome)
        (plos : Str → PlosOutcome),
      handleSearch q env eur plos = SearchResponse.badRequest ↔
        (q = none ∨ q = some [])) ∧
    (∀ (uq : Str) (env : Nat → ExpandOutcome) (eur : Str → EuropeanaOutcome)
        (plos : Str → PlosOutcome), uq ≠ [] →
      ∃ rs, handleSearch (some uq) env eur plos = SearchResponse.ok rs) := by
  constructor
  · intro q env eur plos
    cases q with
    | none => simp [handleSearch]
    | some uq =>
      by_cases h : uq = []
      · subst h
        simp [handleSearch]
      · rw [handleSearch_some_of_ne h]
        split <;> simp [h]
  · intro uq env eur plos h
    rw [handleSearch_some_of_ne h]
    split
    · exact ⟨[], rfl⟩
    · exact ⟨_, rfl⟩

/-- C10 (witness): the positive case of C10 at the raw query `"x"`. -/
theorem claim_C10_witness :
    ∃ rs, handleSearch (some ['x']) (fun _ => ExpandOutcome.failure)
        (fun _ => SettledResult.rejected) (fun _ => SettledResult.rejected) =
      SearchResponse.ok rs :=
  claim_C10.2 ['x'] (fun _ => ExpandOutcome.failure) (fun _ => SettledResult.rejected)
    (fun _ => SettledResult.rejected) (by decide)

/-- C2: the built query string is, for each term in original input order,
the group obtained by deduplicating the term followed by its synonyms in
first-seen order — rendered bare for one member, parenthesized and
joined by ` OR ` for several — with the groups joined by ` AND `; group
members are duplicate-free, and the concrete scenario
`"cat dog"`, cat → [feline], dog → [] yields
`"(cat OR feline) AND dog"`. -/
theorem claim_C2 :
    (∀ (terms : List Str) (env : Nat → ExpandOutcome),
      buildQueryString terms env =
        joinSep andSep
          (terms.enum.map
            (fun p => specRenderGroup (specDedup (p.2 :: expandQuery (env p.1)))))) ∧
    (∀ (t : Str) (syns : List Str), (dedupKeepFirst (t :: syns)).Nodup) ∧
    buildQueryString (getTerms ("cat dog").toList)
        (fun i => if i = 0 then ExpandOutcome.success [⟨("feline").toList⟩]
                  else ExpandOutcome.success []) =
      ("(cat OR feline) AND dog").toList :=
  ⟨buildQueryString_eq_spec, fun t syns => nodup_dedupKeepFirst (t :: syns), by decide⟩

/-- C6: a failed expansion produces the empty synonym list, the affected
term still contributes its own literal text as a singleton (bare) group,
and the request as a whole still succeeds for any non-empty raw query,
whatever the expansion outcomes are. -/
theorem claim_C6 :
    expandQuery ExpandOutcome.failure = [] ∧
    (∀ t : Str, queryGroup t (expandQuery ExpandOutcome.failure) = t) ∧
    (∀ (uq : Str) (env : Nat → ExpandOutcome) (eur : Str → EuropeanaOutcome)
        (plos : Str → PlosOutcome), uq ≠ [] →
      ∃ rs, handleSearch (some uq) env eur plos = SearchResponse.ok rs) := by
  refine ⟨rfl, ?_, ?_⟩
  · intro t
    simp [queryGroup, expandQuery, dedupKeepFirst, dedupAcc]
  · intro uq env eur plos h
    rw [handleSearch_some_of_ne h]
    split
    · exact ⟨[], rfl⟩
    · exact ⟨_, rfl⟩

/-- C6 (witness): a request whose every expansion fails still succeeds,
at the raw query `"y"`. -/
theorem claim_C6_witness :
    ∃ rs, handleSearch (some ['y']) (fun _ => ExpandOutcome.failure)
        (fun _ => SettledResult.rejected) (fun _ => SettledResult.rejected) =
      SearchResponse.ok rs :=
  claim_C6.2.2 ['y'] (fun _ => ExpandOutcome.failure) (fun _ => SettledResult.rejected)
    (fun _ => SettledResult.rejected) (by decide)

/-- C1 (counterexample): one collected record with original score 1/2
gets normalized score 1 (the code divides by maxScore itself whenever it
is positive), while the claimed formula `score / max(1, maxScore)`
yields 1/2. -/
theorem claim_C1_counterexample :
    (normalize [⟨['t'], ['P'], 1/2, ['h'], 0⟩]).map ResultRecord.normalized_score = [1] ∧
    ((⟨['t'], ['P'], 1/2, ['h'], 0⟩ : ResultRecord).original_relevance_score /
        max 1 (maxScore [⟨['t'], ['P'], 1/2, ['h'], 0⟩]) = 1/2) ∧
    (1 : ℚ) ≠ 1/2 := by
  have hm : maxScore [(⟨['t'], ['P'], 1/2, ['h'], 0⟩ : ResultRecord)] = 1/2 := by
    rw [maxScore_cons, maxScore_nil]
    exact max_eq_left (by norm_num)
  refine ⟨?_, ?_, by norm_num⟩
  · rw [normalize_eq_map (List.cons_ne_nil _ _)]
    have hd : divisorOf [(⟨['t'], ['P'], 1/2, ['h'], 0⟩ : ResultRecord)] = 1/2 := by
      rw [divisorOf, hm, if_pos (by norm_num)]
    simp only [List.map_cons, List.map_nil, hd]
    norm_num
  · rw [hm]
    have h1 : max (1 : ℚ) (1/2) = 1 := max_eq_left (by norm_num)
    rw [h1]
    norm_num

/-- C1 (amended): for every non-empty collected result set each record's
normalized score is its original score divided by the divisor, where the
divisor is maxScore when maxScore is positive and 1 otherwise (so for
0 < maxScore < 1 the divisor is maxScore, not 1); records achieving
maxScore get normalized score 1 when maxScore is positive and 0 when
maxScore is 0. -/
theorem claim_C1_amended (rs : List ResultRecord) (h : rs ≠ []) :
    normalize rs =
      rs.map (fun r =>
        { r with normalized_score := r.original_relevance_score / divisorOf rs }) ∧
    (∀ r ∈ rs, r.original_relevance_score = maxScore rs →
      r.original_relevance_score / divisorOf rs =
        (if 0 < maxScore rs then (1 : ℚ) else 0)) := by
  refine ⟨normalize_eq_map h, ?_⟩
  intro r _ hmax
  unfold divisorOf
  by_cases hpos : 0 < maxScore rs
  · rw [if_pos hpos, if_pos hpos, hmax]
    exact div_self (ne_of_gt hpos)
  · rw [if_neg hpos, if_neg hpos, hmax]
    have h0 : maxScore rs = 0 := le_antisymm (not_lt.mp hpos) (maxScore_nonneg rs)
    rw [h0]
    norm_num

/-- C1 (witness): the amended theorem applied to the singleton collection
with original score 1/2. -/
theorem claim_C1_witness :
    normalize [(⟨['t'], ['P'], 1/2, ['h'], 0⟩ : ResultRecord)] =
      [(⟨['t'], ['P'], 1/2, ['h'], 0⟩ : ResultRecord)].map (fun r =>
        { r with normalized_score := r.original_relevance_score /
            divisorOf [(⟨['t'], ['P'], 1/2, ['h'], 0⟩ : ResultRecord)] }) ∧
    (∀ r ∈ [(⟨['t'], ['P'], 1/2, ['h'], 0⟩ : ResultRecord)],
      r.original_relevance_score = maxScore [(⟨['t'], ['P'], 1/2, ['h'], 0⟩ : ResultRecord)] →
      r.original_relevance_score / divisorOf [(⟨['t'], ['P'], 1/2, ['h'], 0⟩ : ResultRecord)] =
        (if 0 < maxScore [(⟨['t'], ['P'], 1/2, ['h'], 0⟩ : ResultRecord)] then (1 : ℚ) else 0)) :=
  claim_C1_amended [⟨['t'], ['P'], 1/2, ['h'], 0⟩] (by decide)

/-- C3: the final sequence is the collected records (Europeana records
then PLOS records) normalized and stable-sorted descending by
normalized score — it is sorted with respect to `sortRel`, it is a
permutation of the normalized collection, records of any given
normalized score keep their concatenation order (stability), sorting a
sorted sequence is a no-op, and the sort is idempotent. -/
theorem claim_C3 :
    (∀ (er : EuropeanaOutcome) (pr : PlosOutcome),
      aggregateResults er pr = sortResults (normalize (collectedRecords er pr)) ∧
      (aggregateResults er pr).Sorted sortRel ∧
      List.Perm (aggregateResults er pr) (normalize (collectedRecords er pr)) ∧
      (∀ q : ℚ,
        (aggregateResults er pr).filter (fun r => r.normalized_score = q) =
          (normalize (collectedRecords er pr)).filter (fun r => r.normalized_score = q))) ∧
    (∀ rs : List ResultRecord, rs.Sorted sortRel → sortResults rs = rs) ∧
    (∀ rs : List ResultRecord, sortResults (sortResults rs) = sortResults rs) :=
  ⟨fun er pr =>
    ⟨rfl, sortResults_sorted (normalize (collectedRecords er pr)),
      sortResults_perm (normalize (collectedRecords er pr)),
      fun q => filter_score_sortResults q (normalize (collectedRecords er pr))⟩,
   fun _ h => sortResults_of_sorted h, sortResults_idem⟩

/-- C3 (witness): re-sorting the sorted singleton sequence is a no-op. -/
theorem claim_C3_witness :
    sortResults [(⟨['a'], ['E'], 1, ['l'], 1⟩ : ResultRecord)] =
      [(⟨['a'], ['E'], 1, ['l'], 1⟩ : ResultRecord)] :=
  claim_C3.2.1 [⟨['a'], ['E'], 1, ['l'], 1⟩] (List.sorted_singleton _)

/-- C4: a rejected or unexpected-shape outcome of one provider leaves the
final result exactly as if that provider had contributed zero records
(for either provider), two failures produce the empty list, and the
handler still answers a successful empty list — not an error — when both
providers fail on any non-empty raw query. -/
theorem claim_C4 :
    (∀ pr : PlosOutcome,
      aggregateResults SettledResult.rejected pr =
        aggregateResults (SettledResult.fulfilled (some [])) pr ∧
      aggregateResults (SettledResult.fulfilled none) pr =
        aggregateResults (SettledResult.fulfilled (some [])) pr) ∧
    (∀ er : EuropeanaOutcome,
      aggregateResults er SettledResult.rejected =
        aggregateResults er (SettledResult.fulfilled (some [])) ∧
      aggregateResults er (SettledResult.fulfilled none) =
        aggregateResults er (SettledResult.fulfilled (some []))) ∧
    aggregateResults SettledResult.rejected SettledResult.rejected = [] ∧
    (∀ (uq : Str) (env : Nat → ExpandOutcome), uq ≠ [] →
      handleSearch (some uq) env (fun _ => SettledResult.rejected)
        (fun _ => SettledResult.rejected) = SearchResponse.ok []) := by
  refine ⟨fun pr => ⟨rfl, rfl⟩, fun er => ⟨rfl, rfl⟩, rfl, ?_⟩
  intro uq env h
  rw [handleSearch_some_of_ne h]
  split
  · rfl
  · rfl

/-- C4 (witness): both providers failing on the raw query `"z"` yields
the successful empty list. -/
theorem claim_C4_witness :
    handleSearch (some ['z']) (fun _ => ExpandOutcome.failure)
        (fun _ => SettledResult.rejected) (fun _ => SettledResult.rejected) =
      SearchResponse.ok [] :=
  claim_C4.2.2.2 ['z'] (fun _ => ExpandOutcome.failure) (by decide)

/-- C7 (counterexample): a fulfilled Europeana response whose single item
has the title array `[""]` crosses the boundary with an EMPTY title (the
code only falls back to the placeholder when the array is absent or has
length zero), refuting "every record has a non-empty title". -/
theorem claim_C7_counterexample :
    (aggregateResults
        (SettledResult.fulfilled (some [⟨some [[]], none, none, some 1⟩]))
        SettledResult.rejected).map ResultRecord.title = [[]] ∧
    ¬ (∀ r ∈ aggregateResults
          (SettledResult.fulfilled (some [⟨some [[]], none, none, some 1⟩]))
          SettledResult.rejected, r.title ≠ []) := by
  refine ⟨by decide, by decide⟩

/-- C7 (amended): every record crossing the boundary has an original
score defaulting to 0 when the source gives none, a title falling back
to the placeholder when the source field is absent or empty (for
Europeana the fallback fires only when the title array is absent or
empty, so an empty-string array element passes through verbatim; PLOS
titles are always non-empty), a non-empty link (placeholder `#` when
unavailable), and — provided all collected original scores are
non-negative — a normalized score in [0, 1]. -/
theorem claim_C7_amended :
    (∀ item : EuropeanaItem, item.score = none →
      (mapEuropeanaItem item).original_relevance_score = 0) ∧
    (∀ doc : PlosDoc, doc.score = none →
      (mapPlosDoc doc).original_relevance_score = 0) ∧
    (∀ item : EuropeanaItem, item.title = none ∨ item.title = some [] →
      (mapEuropeanaItem item).title = sinTitulo) ∧
    (∀ doc : PlosDoc, doc.title_display = none ∨ doc.title_display = some [] →
      (mapPlosDoc doc).title = sinTitulo) ∧
    (∀ doc : PlosDoc, (mapPlosDoc doc).title ≠ []) ∧
    (∀ item : EuropeanaItem, (mapEuropeanaItem item).link ≠ []) ∧
    (∀ doc : PlosDoc, (mapPlosDoc doc).link ≠ []) ∧
    (∀ (er : EuropeanaOutcome) (pr : PlosOutcome),
      (∀ r ∈ collectedRecords er pr, 0 ≤ r.original_relevance_score) →
      ∀ r ∈ aggregateResults er pr,
        0 ≤ r.normalized_score ∧ r.normalized_score ≤ 1 ∧ r.link ≠ []) := by
  refine ⟨?_, ?_, ?_, ?_, mapPlosDoc_title_ne_nil, mapEuropeanaItem_link_ne_nil,
    mapPlosDoc_link_ne_nil, ?_⟩
  · intro item h
    simp [mapEuropeanaItem, jsNumOr, h]
  · intro doc h
    simp [mapPlosDoc, jsNumOr, h]
  · intro item h
    rcases h with h | h <;> simp [mapEuropeanaItem, h]
  · intro doc h
    rcases h with h | h <;> simp [mapPlosDoc, jsStrOr, h]
  · intro er pr hnn r hr
    have hmem : r ∈ normalize (collectedRecords er pr) :=
      (List.mem_insertionSort sortRel).mp hr
    obtain ⟨hge, hle⟩ := normalized_score_mem_unit hnn hmem
    refine ⟨hge, hle, ?_⟩
    rcases mem_normalize hmem with ⟨r0, hr0, rfl⟩
    have hl := collected_link_ne_nil hr0
    exact hl

/-- C7 (witness): the amended theorem applied to an item with every field
absent. -/
theorem claim_C7_witness :
    (mapEuropeanaItem ⟨none, none, none, none⟩).original_relevance_score = 0 ∧
    (mapEuropeanaItem ⟨none, none, none, none⟩).title = sinTitulo :=
  ⟨claim_C7_amended.1 ⟨none, none, none, none⟩ rfl,
   claim_C7_amended.2.2.1 ⟨none, none, none, none⟩ (Or.inl rfl)⟩

/-- C9 (counterexample): `expandQuery` passes the service's word list
through verbatim: a response with six entries, one of them repeated, is
returned with the duplicate intact and with more than five members,
refuting "a set (no duplicate members) containing at most 5 related
words". -/
theorem claim_C9_counterexample :
    expandQuery (ExpandOutcome.success
        [⟨['a']⟩, ⟨['a']⟩, ⟨['b']⟩, ⟨['c']⟩, ⟨['d']⟩, ⟨['e']⟩]) =
      [['a'], ['a'], ['b'], ['c'], ['d'], ['e']] ∧
    ¬ ([['a'], ['a'], ['b'], ['c'], ['d'], ['e']] : List Str).Nodup ∧
    5 < (expandQuery (ExpandOutcome.success
        [⟨['a']⟩, ⟨['a']⟩, ⟨['b']⟩, ⟨['c']⟩, ⟨['d']⟩, ⟨['e']⟩])).length := by
  refine ⟨rfl, by decide, by decide⟩

/-- C9 (amended): `expandQuery` returns exactly the word list the lexical
service reports (the request caps it at five via `max=5`, but the
function itself neither truncates nor deduplicates): it has at most five
members whenever the service response does, it is duplicate-free
whenever the response is, and a zero-match response or any failure
yields the empty list. -/
theorem claim_C9_amended :
    (∀ items : List DMWord,
      expandQuery (ExpandOutcome.success items) = items.map DMWord.word) ∧
    (∀ items : List DMWord, items.length ≤ 5 →
      (expandQuery (ExpandOutcome.success items)).length ≤ 5) ∧
    (∀ items : List DMWord, (items.map DMWord.word).Nodup →
      (expandQuery (ExpandOutcome.success items)).Nodup) ∧
    expandQuery (ExpandOutcome.success []) = [] ∧
    expandQuery ExpandOutcome.failure = [] := by
  refine ⟨fun items => rfl, ?_, fun items h => h, rfl, rfl⟩
  intro items h
  simpa [expandQuery] using h

/-- C9 (witness): the amended theorem's length bound at a one-word
response. -/
theorem claim_C9_witness :
    (expandQuery (ExpandOutcome.success [⟨['a']⟩])).length ≤ 5 :=
  claim_C9_amended.2.1 [⟨['a']⟩] (by decide)

end FedSearch
